import Mathlib

/-!
Shallow embedding of the Apex-Indexer-LS Symbol Index Engine
(src/parser.ts: `parseFile`, `IndexerService`; src/utils.ts: coordinate
helpers; src/types.ts: the location model), together with proofs of the
spec's claims about it.

JavaScript `Map` objects are modelled as insertion-ordered association
lists (`SymbolMap`), JavaScript `Set` objects as insertion-ordered
duplicate-free lists. JavaScript numbers holding line/column values are
modelled as `Int` (no overflow is reachable). External collaborators
(path.relative, path.resolve, the tree-sitter extraction, the glob
enumeration, process.platform) are parameters of the model, gathered in
`Env`; a failing asynchronous operation is `Option.none`.
-/

/-- Internal 1-based position (src/types.ts `Position`). -/
structure Position where
  line : Int
  column : Int
deriving Repr, DecidableEq

/-- Internal 1-based range (src/types.ts `Range`); the source field `end`
is a Lean keyword, rendered here as `endPos`. -/
structure Range where
  start : Position
  endPos : Position
deriving Repr, DecidableEq

/-- Definition record (src/types.ts `Definition`): `kind` is the string
union `DefinitionKind` of the source, modelled as `String`. -/
structure Definition where
  name : String
  kind : String
  file : String
  range : Range
deriving Repr, DecidableEq

/-- Reference record (src/types.ts `Reference`). -/
structure Reference where
  name : String
  file : String
  range : Range
deriving Repr, DecidableEq

/-- Protocol 0-based position (vscode-languageserver `Position`). -/
structure LspPosition where
  line : Int
  character : Int
deriving Repr, DecidableEq

/-- Protocol range (vscode-languageserver `Range`). -/
structure LspRange where
  start : LspPosition
  endPos : LspPosition
deriving Repr, DecidableEq

/-- Protocol location (vscode-languageserver `Location`). -/
structure LspLocation where
  uri : String
  range : LspRange
deriving Repr, DecidableEq

/-- Tree-sitter 0-based point (row/column), input of `pointToPosition`. -/
structure Point where
  row : Int
  column : Int
deriving Repr, DecidableEq

/-- Projections shared by `Definition` and `Reference`, so the map
machinery of the engine is written once. -/
class IndexEntry (α : Type) where
  nameOf : α → String
  fileOf : α → String
  startOf : α → Position

instance : IndexEntry Definition :=
  ⟨Definition.name, Definition.file, fun d => d.range.start⟩

instance : IndexEntry Reference :=
  ⟨Reference.name, Reference.file, fun r => r.range.start⟩

/-- Model of a JavaScript `Map` from symbol names to buckets: an
insertion-ordered association list. -/
abbrev SymbolMap (α : Type) := List (String × List α)

/-- Model of `Map.get(k)` followed by `?? []`: the first entry with the
key, or the empty bucket. -/
def mapGet {α : Type} (m : SymbolMap α) (k : String) : List α :=
  match m with
  | [] => []
  | p :: rest => if p.1 = k then p.2 else mapGet rest k

/-- Model of `Map.set(k, v)`: replace in place when the key exists,
append at the end otherwise. -/
def mapSet {α : Type} (m : SymbolMap α) (k : String) (v : List α) : SymbolMap α :=
  match m with
  | [] => [(k, v)]
  | p :: rest => if p.1 = k then (k, v) :: rest else p :: mapSet rest k v

/-- Model of `Set.add(x)`: append when absent. -/
def setAdd (s : List String) (x : String) : List String :=
  if s.contains x then s else s ++ [x]

/-- Model of `Set.delete(x)`. -/
def setDelete (s : List String) (x : String) : List String :=
  s.filter (fun y => y != x)

/-- The deduplication test of `IndexerService.indexFile`: collision on
`(file, range.start.line, range.start.column)`. -/
def collides {α : Type} [IndexEntry α] (e d : α) : Bool :=
  IndexEntry.fileOf e == IndexEntry.fileOf d &&
  (IndexEntry.startOf e).line == (IndexEntry.startOf d).line &&
  (IndexEntry.startOf e).column == (IndexEntry.startOf d).column

/-- Effect of one `forEach` body of `indexFile` on the bucket of the
inserted entry's name: skip on collision, otherwise append. -/
def bucketInsert {α : Type} [IndexEntry α] (b : List α) (d : α) : List α :=
  if b.any (fun e => collides e d) then b else b ++ [d]

/-- One `forEach` body of `indexFile`: look the bucket up, skip on
collision, otherwise `set(name, [...existing, d])`. -/
def mapInsert {α : Type} [IndexEntry α] (m : SymbolMap α) (d : α) : SymbolMap α :=
  if (mapGet m (IndexEntry.nameOf d)).any (fun e => collides e d) then m
  else mapSet m (IndexEntry.nameOf d) (mapGet m (IndexEntry.nameOf d) ++ [d])

/-- One map's half of `IndexerService.removeDataForFile`: filter each
bucket by file, delete buckets that become empty, keep the rest. -/
def removeFileEntries {α : Type} [IndexEntry α] (m : SymbolMap α) (rel : String) :
    SymbolMap α :=
  m.filterMap (fun p =>
    if (p.2.filter (fun e => IndexEntry.fileOf e != rel)).isEmpty then none
    else some (p.1, p.2.filter (fun e => IndexEntry.fileOf e != rel)))

/-- Result of one `parseFile` call: the definitions and references of one
file. -/
abbrev Extraction := List Definition × List Reference

/-- External collaborators of the engine, fixed for a session:
`relOf root abs` is `path.relative(root, abs)`, `resolve root rel` is
`path.resolve(root, rel)`, `win32` is `process.platform === "win32"`, and
`extract abs root` is the Symbol Extraction Port (`parseFile(abs, root)`),
with `none` for a rejected promise. -/
structure Env where
  relOf : String → String → String
  resolve : String → String → String
  win32 : Bool
  extract : String → String → Option Extraction

/-- Mutable state of `IndexerService` (src/parser.ts, class fields). -/
structure IndexerState where
  definitions : SymbolMap Definition
  references : SymbolMap Reference
  filesIndexed : List String
  projectRoot : Option String
  isIndexing : Bool
deriving Repr, DecidableEq

/-- The `IndexerService.removeDataForFile` helper: drop every entry of
the given relative path from both maps (deleting emptied buckets) and
from the indexed-file set. -/
def removeDataForFile (s : IndexerState) (relativePath : String) : IndexerState :=
  { s with
    definitions := removeFileEntries s.definitions relativePath
    references := removeFileEntries s.references relativePath
    filesIndexed := setDelete s.filesIndexed relativePath }

/-- The `IndexerService.indexFile` method: no-op without a project root;
otherwise remove the file's old data, then, when extraction succeeds,
insert the new definitions and references with per-bucket deduplication
and add the relative path to the indexed-file set; when extraction fails,
stop after the removal. -/
def indexFile (env : Env) (s : IndexerState) (absolutePath : String) : IndexerState :=
  match s.projectRoot with
  | none => s
  | some root =>
    let relativePath := env.relOf root absolutePath
    let s1 := removeDataForFile s relativePath
    match env.extract absolutePath root with
    | none => s1
    | some (newDefs, newRefs) =>
      { s1 with
        definitions := newDefs.foldl mapInsert s1.definitions
        references := newRefs.foldl mapInsert s1.references
        filesIndexed := setAdd s1.filesIndexed relativePath }

/-- The `IndexerService.runFullIndex` method: no-op without a project
root or while `isIndexing`; otherwise set the flag, clear both maps and
the indexed-file set, then enumerate (`enumerate = none` models a glob
failure, aborting after the clear), then index every file in order and
reset the flag. -/
def runFullIndex (env : Env) (enumerate : Option (List String))
    (s : IndexerState) : IndexerState :=
  match s.projectRoot with
  | none => s
  | some _ =>
    if s.isIndexing then s
    else
      let s1 : IndexerState :=
        { s with isIndexing := true, definitions := [], references := [],
                 filesIndexed := [] }
      match enumerate with
      | none => { s1 with isIndexing := false }
      | some files =>
        if files.isEmpty then { s1 with isIndexing := false }
        else
          let s2 := files.foldl (indexFile env) s1
          { s2 with isIndexing := false }

/-- Kernel-reducible model of `String.startsWith`. -/
def strStartsWith (s p : String) : Bool := p.toList.isPrefixOf s.toList

/-- Kernel-reducible model of `String.endsWith`. -/
def strEndsWith (s p : String) : Bool := p.toList.isSuffixOf s.toList

/-- Kernel-reducible model of `String.drop`. -/
def strDrop (s : String) (n : Nat) : String := String.mk (s.toList.drop n)

/-- The `uriToPath` helper of src/utils.ts, for plain ASCII file URIs:
reject anything not starting with `file://`, otherwise strip the scheme
(`fileURLToPath`). -/
def uriToPath (uri : String) : Option String :=
  if strStartsWith uri "file://" then some (strDrop uri 7) else none

/-- The saved-file suffix test of `handleFileSave`, the regular
expression `\.(cls|trigger|apex)$`. -/
def isApexFile (p : String) : Bool :=
  strEndsWith p ".cls" || strEndsWith p ".trigger" || strEndsWith p ".apex"

/-- The `IndexerService.handleFileSave` method: convert the URI to a
path, accept it when a project root is set and the path string starts
with the root and has a recognised suffix, and re-index that single
file. -/
def handleFileSave (env : Env) (s : IndexerState) (uri : String) : IndexerState :=
  match uriToPath uri with
  | none => s
  | some filePath =>
    match s.projectRoot with
    | none => s
    | some root =>
      if strStartsWith filePath root && isApexFile filePath then
        indexFile env s filePath
      else s

/-- The coordinate translation of `utils.indexRangeToLspRange` and
`IndexerService.toLspRange`: subtract 1 from every line and column. -/
def indexRangeToLspRange (r : Range) : LspRange :=
  { start := { line := r.start.line - 1, character := r.start.column - 1 }
    endPos := { line := r.endPos.line - 1, character := r.endPos.column - 1 } }

/-- The `utils.pointToPosition` helper: tree-sitter 0-based point to
internal 1-based position, adding 1 to row and column. -/
def pointToPosition (point : Point) : Position :=
  { line := point.row + 1, column := point.column + 1 }

/-- Model of `absolutePath.replace(/\\/g, "/")`: every backslash becomes
a forward slash. -/
def slashify (s : String) : String :=
  String.mk (s.toList.map (fun c => if c = '\x5c' then '/' else c))

/-- The `IndexerService.toLspLocation` method: `undefined` without a
project root; otherwise resolve the relative path against the root and
format a file URI (with the extra slash on a win32 platform). -/
def toLspLocation (env : Env) (s : IndexerState) (file : String)
    (range : Range) : Option LspLocation :=
  match s.projectRoot with
  | none => none
  | some root =>
    let absolutePath := slashify (env.resolve root file)
    let fileUri := "file://" ++ absolutePath
    let fileUri :=
      if env.win32 && strStartsWith fileUri "file://" &&
          !(strStartsWith fileUri "file:///") then
        "file:///" ++ absolutePath
      else fileUri
    some { uri := fileUri, range := indexRangeToLspRange range }

/-- The `IndexerService.findDefinitions` method: look the exact name up
and translate each stored location, skipping the ones the translator
rejects. -/
def findDefinitions (env : Env) (s : IndexerState) (symbol : String) :
    List LspLocation :=
  (mapGet s.definitions symbol).filterMap
    (fun d => toLspLocation env s d.file d.range)

/-- The `IndexerService.findReferences` method, same shape as
`findDefinitions` over the reference map. -/
def findReferences (env : Env) (s : IndexerState) (symbol : String) :
    List LspLocation :=
  (mapGet s.references symbol).filterMap
    (fun r => toLspLocation env s r.file r.range)

/-- Text and range of a tree-sitter node as `parseFile` consumes it
(`getNodeText` and `getNodeRange` applied to the node). -/
structure Node where
  text : String
  range : Range
deriving Repr, DecidableEq

/-- One match of a definition query in `parseFile`: whether the `def`
capture is present, the `name` capture, and the node that
`defNode.childForFieldName("name")` would return for the constructor
fallback. -/
structure DefMatch where
  hasDef : Bool
  nameNode : Option Node
  ctorName : Option Node
deriving Repr, DecidableEq

/-- Outcome of the external tree-sitter engine for one `parseFile` call:
whether `fs.readFile` succeeds, per definition kind the query's matches
(`none` when constructing or running that query throws), and for the
reference query the chosen node of each match (`none` when the reference
query throws). -/
structure ParseOracle where
  readOk : Bool
  defMatches : String → Option (List DefMatch)
  refMatches : Option (List (Option Node))

/-- Iteration order of `Object.entries(definitionQueries)` in
src/parser.ts. -/
def definitionKinds : List String :=
  ["class", "interface", "enum", "method", "constructor", "property", "trigger"]

/-- The `foundDefRanges` key of `parseFile`, the template string
`\x7bline\x7d:\x7bcolumn\x7d` over the range start. -/
def posKey (p : Position) : String :=
  toString p.line ++ ":" ++ toString p.column

/-- Body of the per-match loop of a definition query in `parseFile`:
accumulates the definition list and the `foundDefRanges` keys. -/
def defStep (relativePath kind : String)
    (acc : List Definition × List String) (m : DefMatch) :
    List Definition × List String :=
  match m.nameNode with
  | some n =>
    if m.hasDef then
      (acc.1 ++ [{ name := n.text, kind := kind, file := relativePath,
                   range := n.range }],
       acc.2 ++ [posKey n.range.start])
    else acc
  | none =>
    if m.hasDef && kind == "constructor" then
      match m.ctorName with
      | some c =>
        (acc.1 ++ [{ name := c.text, kind := "constructor",
                     file := relativePath, range := c.range }],
         acc.2 ++ [posKey c.range.start])
      | none => acc
    else acc

/-- One iteration of the definition-query loop of `parseFile`: a throwing
query is logged and skipped, keeping what was accumulated so far. -/
def kindStep (o : ParseOracle) (relativePath : String)
    (acc : List Definition × List String) (kind : String) :
    List Definition × List String :=
  match o.defMatches kind with
  | none => acc
  | some ms => ms.foldl (defStep relativePath kind) acc

/-- Body of the reference-match loop of `parseFile`: skip matches without
a node and matches whose start position collides with a found definition
range. -/
def refStep (relativePath : String) (found : List String)
    (acc : List Reference) (rn : Option Node) : List Reference :=
  match rn with
  | some n =>
    if found.contains (posKey n.range.start) then acc
    else acc ++ [{ name := n.text, file := relativePath, range := n.range }]
  | none => acc

/-- The `parseFile` function of src/parser.ts: compute the relative path,
and inside one big try/catch collect definitions per kind and then
references; any failure is caught and the lists accumulated so far are
returned, so the function always returns normally. -/
def parseFile (oracle : String → ParseOracle)
    (relOf : String → String → String) (filePath root : String) : Extraction :=
  let relativePath := relOf root filePath
  let o := oracle filePath
  if !o.readOk then ([], [])
  else
    let defsFound := definitionKinds.foldl (kindStep o relativePath) ([], [])
    let refs :=
      match o.refMatches with
      | none => []
      | some ms => ms.foldl (refStep relativePath defsFound.2) []
    (defsFound.1, refs)

/-- The Symbol Extraction Port as implemented by `parseFile`: a promise
that always fulfills (the model of `async parseFile` never rejects). -/
def parseFileExtract (oracle : String → ParseOracle)
    (relOf : String → String → String) : String → String → Option Extraction :=
  fun filePath root => some (parseFile oracle relOf filePath root)

/-- Definitions one file contributes to a rebuild: the extraction output,
or nothing when extraction fails. -/
def fileDefs (env : Env) (root f : String) : List Definition :=
  match env.extract f root with
  | some pr => pr.1
  | none => []

/-- References one file contributes to a rebuild. -/
def fileRefs (env : Env) (root f : String) : List Reference :=
  match env.extract f root with
  | some pr => pr.2
  | none => []

/-- Definition stream of a rebuild: files in the supplied order, within
one file the extractor's output order. -/
def extractedDefs (env : Env) (root : String) (files : List String) :
    List Definition :=
  files.flatMap (fileDefs env root)

/-- Reference stream of a rebuild. -/
def extractedRefs (env : Env) (root : String) (files : List String) :
    List Reference :=
  files.flatMap (fileRefs env root)

/-- Value of a successful `toLspLocation` call (project root known). -/
def lspLocationOf (env : Env) (root file : String) (range : Range) : LspLocation :=
  let absolutePath := slashify (env.resolve root file)
  let fileUri := "file://" ++ absolutePath
  let fileUri :=
    if env.win32 && strStartsWith fileUri "file://" &&
        !(strStartsWith fileUri "file:///") then
      "file:///" ++ absolutePath
    else fileUri
  { uri := fileUri, range := indexRangeToLspRange range }

/-- Sample class definition (class `Foo` of file `A.cls`, name at line 1
column 14), used by the concrete scenarios. -/
def dFoo : Definition :=
  { name := "Foo", kind := "class", file := "A.cls",
    range := { start := { line := 1, column := 14 },
               endPos := { line := 1, column := 17 } } }

/-- Sample reference (`Bar` used at line 2 column 5 of `A.cls`), used by
the concrete scenarios. -/
def refBar : Reference :=
  { name := "Bar", file := "A.cls",
    range := { start := { line := 2, column := 5 },
               endPos := { line := 2, column := 8 } } }

/-- Session whose extraction always fails, used by the concrete
scenarios. -/
def envNoExtract : Env :=
  { relOf := fun _ p => p, resolve := fun r f => r ++ "/" ++ f,
    win32 := false, extract := fun _ _ => none }

/-- Session rooted at `/p` whose extractor finds `dFoo` and `refBar` in
`/p/A.cls` and fails elsewhere; relative paths strip the `/p/` part. -/
def envOk : Env :=
  { relOf := fun _ p => strDrop p 3, resolve := fun r f => r ++ "/" ++ f,
    win32 := false,
    extract := fun p _ =>
      if p == "/p/A.cls" then some ([dFoo], [refBar]) else none }

/-- State already holding one indexed file. -/
def sPrior : IndexerState :=
  { definitions := [("Foo", [dFoo])], references := [],
    filesIndexed := ["A.cls"], projectRoot := some "/p", isIndexing := false }

/-- State of `sPrior` while a rebuild is in progress. -/
def sBusy : IndexerState :=
  { sPrior with isIndexing := true }

/-- State of `sPrior` with no resolved project root. -/
def sNone : IndexerState :=
  { sPrior with projectRoot := none }

/-- Fresh state rooted at `/p`. -/
def sInit : IndexerState :=
  { definitions := [], references := [], filesIndexed := [],
    projectRoot := some "/p", isIndexing := false }

/-- Definition extracted from a file outside the project whose relative
path therefore escapes the root. -/
def dOutside : Definition :=
  { name := "Foo", kind := "class", file := "../proj2/A.cls",
    range := { start := { line := 1, column := 14 },
               endPos := { line := 1, column := 17 } } }

/-- Session rooted at `/work/proj` whose extractor finds `dOutside` in
the sibling-directory file `/work/proj2/A.cls`. -/
def env9 : Env :=
  { relOf := fun _ p => if p == "/work/proj2/A.cls" then "../proj2/A.cls" else p,
    resolve := fun r f => r ++ "/" ++ f, win32 := false,
    extract := fun p _ =>
      if p == "/work/proj2/A.cls" then some ([dOutside], []) else none }

/-- State rooted at the sibling-prone directory `/work/proj`. -/
def s9 : IndexerState :=
  { definitions := [], references := [], filesIndexed := [],
    projectRoot := some "/work/proj", isIndexing := false }

/-- Trivial extraction oracle: readable file, no matches. -/
def oracle0 : String → ParseOracle :=
  fun _ => { readOk := true, defMatches := fun _ => some [], refMatches := some [] }

/-! Helper lemmas about the map and set models. -/

theorem mapGet_mapSet_self {α : Type} (m : SymbolMap α) (k : String) (v : List α) :
    mapGet (mapSet m k v) k = v := by
  induction m with
  | nil => simp [mapSet, mapGet]
  | cons p rest ih =>
    by_cases h : p.1 = k
    · simp [mapSet, mapGet, h]
    · simp [mapSet, mapGet, h, ih]

theorem mapGet_mapSet_ne {α : Type} (m : SymbolMap α) (k k' : String) (v : List α)
    (h : k' ≠ k) : mapGet (mapSet m k v) k' = mapGet m k' := by
  induction m with
  | nil => simp [mapSet, mapGet, Ne.symm h]
  | cons p rest ih =>
    by_cases hp : p.1 = k
    · have hp' : k ≠ k' := Ne.symm h
      have hpk : p.1 ≠ k' := by rw [hp]; exact hp'
      simp [mapSet, mapGet, hp, hp', hpk]
    · by_cases hk' : p.1 = k'
      · simp [mapSet, mapGet, hp, hk', h]
      · simp [mapSet, mapGet, hp, hk', ih]

theorem mapGet_mapInsert {α : Type} [IndexEntry α] (m : SymbolMap α) (d : α)
    (k : String) :
    mapGet (mapInsert m d) k =
      if k = IndexEntry.nameOf d then bucketInsert (mapGet m k) d
      else mapGet m k := by
  unfold mapInsert bucketInsert
  by_cases hc : ((mapGet m (IndexEntry.nameOf d)).any (fun e => collides e d)) = true
  · rw [if_pos hc]
    by_cases hk : k = IndexEntry.nameOf d
    · rw [if_pos hk, hk, if_pos hc]
    · rw [if_neg hk]
  · rw [if_neg hc]
    by_cases hk : k = IndexEntry.nameOf d
    · rw [if_pos hk, hk, if_neg hc, mapGet_mapSet_self]
    · rw [if_neg hk, mapGet_mapSet_ne _ _ _ _ hk]

theorem mapGet_foldl_mapInsert {α : Type} [IndexEntry α] (l : List α)
    (m : SymbolMap α) (k : String) :
    mapGet (l.foldl mapInsert m) k =
      (l.filter (fun d => IndexEntry.nameOf d == k)).foldl bucketInsert (mapGet m k) := by
  induction l generalizing m with
  | nil => simp
  | cons d rest ih =>
    simp only [List.foldl_cons, List.filter_cons]
    by_cases hd : IndexEntry.nameOf d = k
    · have hb : (IndexEntry.nameOf d == k) = true := beq_iff_eq.mpr hd
      simp only [hb, if_true, List.foldl_cons]
      rw [ih, mapGet_mapInsert, if_pos hd.symm]
    · have hb : (IndexEntry.nameOf d == k) = false := by
        simpa using hd
      simp only [hb, Bool.false_eq_true, if_false]
      rw [ih, mapGet_mapInsert, if_neg (Ne.symm hd)]

theorem mem_bucketInsert {α : Type} [IndexEntry α] {b : List α} {d e : α}
    (h : e ∈ bucketInsert b d) : e ∈ b ∨ e = d := by
  unfold bucketInsert at h
  by_cases hc : (b.any (fun x => collides x d)) = true
  · rw [if_pos hc] at h; exact Or.inl h
  · rw [if_neg hc] at h
    rcases List.mem_append.mp h with h1 | h1
    · exact Or.inl h1
    · exact Or.inr (List.mem_singleton.mp h1)

theorem mem_foldl_bucketInsert {α : Type} [IndexEntry α] {l : List α}
    {b : List α} {e : α} (h : e ∈ l.foldl bucketInsert b) : e ∈ b ∨ e ∈ l := by
  induction l generalizing b with
  | nil => exact Or.inl h
  | cons d rest ih =>
    rcases ih (b := bucketInsert b d) h with h1 | h1
    · rcases mem_bucketInsert h1 with h2 | h2
      · exact Or.inl h2
      · exact Or.inr (by simp [h2])
    · exact Or.inr (List.mem_cons_of_mem _ h1)

theorem mem_mapGet_removeFileEntries {α : Type} [IndexEntry α]
    {m : SymbolMap α} {rel k : String} {e : α}
    (h : e ∈ mapGet (removeFileEntries m rel) k) : IndexEntry.fileOf e ≠ rel := by
  induction m with
  | nil => simp [removeFileEntries, mapGet] at h
  | cons p rest ih =>
    simp only [removeFileEntries, List.filterMap_cons] at h
    by_cases hemp : (p.2.filter (fun x => IndexEntry.fileOf x != rel)).isEmpty = true
    · rw [if_pos hemp] at h
      exact ih (by simpa [removeFileEntries] using h)
    · rw [if_neg hemp] at h
      simp only [mapGet] at h
      by_cases hk : p.1 = k
      · rw [if_pos hk] at h
        have := List.mem_filter.mp h
        simpa using this.2
      · rw [if_neg hk] at h
        exact ih (by simpa [removeFileEntries] using h)

theorem mem_mapSet {α : Type} {m : SymbolMap α} {k : String} {v : List α}
    {p : String × List α} (h : p ∈ mapSet m k v) : p = (k, v) ∨ p ∈ m := by
  induction m with
  | nil => simp [mapSet] at h; simp [h]
  | cons q rest ih =>
    simp only [mapSet] at h
    by_cases hq : q.1 = k
    · rw [if_pos hq] at h
      rcases List.mem_cons.mp h with h1 | h1
      · exact Or.inl h1
      · exact Or.inr (List.mem_cons_of_mem _ h1)
    · rw [if_neg hq] at h
      rcases List.mem_cons.mp h with h1 | h1
      · exact Or.inr (by simp [h1])
      · rcases ih h1 with h2 | h2
        · exact Or.inl h2
        · exact Or.inr (List.mem_cons_of_mem _ h2)

theorem mem_mapGet {α : Type} {m : SymbolMap α} {k : String} {e : α}
    (h : e ∈ mapGet m k) : ∃ p ∈ m, e ∈ p.2 := by
  induction m with
  | nil => simp [mapGet] at h
  | cons p rest ih =>
    simp only [mapGet] at h
    by_cases hk : p.1 = k
    · rw [if_pos hk] at h
      exact ⟨p, by simp, h⟩
    · rw [if_neg hk] at h
      obtain ⟨q, hq, he⟩ := ih h
      exact ⟨q, List.mem_cons_of_mem _ hq, he⟩

theorem mapGet_cases {α : Type} (m : SymbolMap α) (k : String) :
    mapGet m k = [] ∨ ∃ p ∈ m, p.1 = k ∧ mapGet m k = p.2 := by
  induction m with
  | nil => exact Or.inl rfl
  | cons p rest ih =>
    by_cases hk : p.1 = k
    · exact Or.inr ⟨p, by simp, hk, by simp [mapGet, hk]⟩
    · rcases ih with h1 | ⟨q, hq, hqk, hqget⟩
      · exact Or.inl (by simp [mapGet, hk, h1])
      · exact Or.inr ⟨q, List.mem_cons_of_mem _ hq, hqk, by simp [mapGet, hk, hqget]⟩

theorem mem_setAdd {s : List String} {x y : String} :
    y ∈ setAdd s x ↔ y ∈ s ∨ y = x := by
  unfold setAdd
  by_cases hc : (s.contains x) = true
  · rw [if_pos hc]
    constructor
    · exact Or.inl
    · rintro (h | rfl)
      · exact h
      · simpa using hc
  · rw [if_neg hc]
    simp

theorem mem_setDelete {s : List String} {x y : String} :
    y ∈ setDelete s x ↔ y ∈ s ∧ y ≠ x := by
  unfold setDelete
  simp [List.mem_filter]

/-- Every entry of every bucket of the map satisfies `Q`. -/
def AllEntries {α : Type} (Q : α → Prop) (m : SymbolMap α) : Prop :=
  ∀ p ∈ m, ∀ e ∈ p.2, Q e

/-- Every bucket stored in the map is nonempty (the engine never stores
an empty bucket: insertion appends, removal deletes emptied buckets). -/
def NonemptyBuckets {α : Type} (m : SymbolMap α) : Prop :=
  ∀ p ∈ m, p.2 ≠ []

theorem AllEntries_mapGet {α : Type} {Q : α → Prop} {m : SymbolMap α}
    (h : AllEntries Q m) (k : String) : ∀ e ∈ mapGet m k, Q e := by
  intro e he
  obtain ⟨p, hp, hep⟩ := mem_mapGet he
  exact h p hp e hep

theorem AllEntries_mapInsert {α : Type} [IndexEntry α] {Q : α → Prop}
    {m : SymbolMap α} {d : α} (h : AllEntries Q m) (hd : Q d) :
    AllEntries Q (mapInsert m d) := by
  unfold mapInsert
  by_cases hc : ((mapGet m (IndexEntry.nameOf d)).any (fun e => collides e d)) = true
  · rw [if_pos hc]; exact h
  · rw [if_neg hc]
    intro p hp e hep
    rcases mem_mapSet hp with h1 | h1
    · subst h1
      rcases List.mem_append.mp hep with h2 | h2
      · exact AllEntries_mapGet h _ e h2
      · rw [List.mem_singleton.mp h2]; exact hd
    · exact h p h1 e hep

theorem AllEntries_foldl_mapInsert {α : Type} [IndexEntry α] {Q : α → Prop}
    {l : List α} {m : SymbolMap α} (h : AllEntries Q m) (hl : ∀ d ∈ l, Q d) :
    AllEntries Q (l.foldl mapInsert m) := by
  induction l generalizing m with
  | nil => exact h
  | cons d rest ih =>
    exact ih (AllEntries_mapInsert h (hl d (by simp)))
      (fun x hx => hl x (List.mem_cons_of_mem _ hx))

theorem AllEntries_removeFileEntries {α : Type} [IndexEntry α] {Q : α → Prop}
    {m : SymbolMap α} {rel : String} (h : AllEntries Q m) :
    AllEntries Q (removeFileEntries m rel) := by
  intro p hp e hep
  unfold removeFileEntries at hp
  obtain ⟨q, hq, hfq⟩ := List.mem_filterMap.mp hp
  by_cases hemp : (q.2.filter (fun x => IndexEntry.fileOf x != rel)).isEmpty = true
  · rw [if_pos hemp] at hfq; exact absurd hfq (by simp)
  · rw [if_neg hemp] at hfq
    obtain rfl : p = (q.1, q.2.filter (fun x => IndexEntry.fileOf x != rel)) :=
      (Option.some_inj.mp hfq).symm
    exact h q hq e (List.mem_of_mem_filter hep)

theorem NonemptyBuckets_mapInsert {α : Type} [IndexEntry α]
    {m : SymbolMap α} {d : α} (h : NonemptyBuckets m) :
    NonemptyBuckets (mapInsert m d) := by
  unfold mapInsert
  by_cases hc : ((mapGet m (IndexEntry.nameOf d)).any (fun e => collides e d)) = true
  · rw [if_pos hc]; exact h
  · rw [if_neg hc]
    intro p hp
    rcases mem_mapSet hp with h1 | h1
    · subst h1; simp
    · exact h p h1

theorem NonemptyBuckets_foldl_mapInsert {α : Type} [IndexEntry α]
    {l : List α} {m : SymbolMap α} (h : NonemptyBuckets m) :
    NonemptyBuckets (l.foldl mapInsert m) := by
  induction l generalizing m with
  | nil => exact h
  | cons d rest ih => exact ih (NonemptyBuckets_mapInsert h)

theorem NonemptyBuckets_removeFileEntries {α : Type} [IndexEntry α]
    (m : SymbolMap α) (rel : String) :
    NonemptyBuckets (removeFileEntries m rel) := by
  intro p hp
  unfold removeFileEntries at hp
  obtain ⟨q, hq, hfq⟩ := List.mem_filterMap.mp hp
  by_cases hemp : (q.2.filter (fun x => IndexEntry.fileOf x != rel)).isEmpty = true
  · rw [if_pos hemp] at hfq; exact absurd hfq (by simp)
  · rw [if_neg hemp] at hfq
    obtain rfl : p = (q.1, q.2.filter (fun x => IndexEntry.fileOf x != rel)) :=
      (Option.some_inj.mp hfq).symm
    simpa [List.isEmpty_iff] using hemp

theorem removeFileEntries_eq_self {α : Type} [IndexEntry α]
    {m : SymbolMap α} {rel : String} (hne : NonemptyBuckets m)
    (h : AllEntries (fun e => IndexEntry.fileOf e ≠ rel) m) :
    removeFileEntries m rel = m := by
  induction m with
  | nil => rfl
  | cons p rest ih =>
    have hfilt : p.2.filter (fun x => IndexEntry.fileOf x != rel) = p.2 := by
      apply List.filter_eq_self.mpr
      intro e he
      simpa using h p (by simp) e he
    have hpe : p.2.isEmpty = false := by
      simpa [List.isEmpty_iff] using hne p (by simp)
    have ihr := ih (fun q hq => hne q (List.mem_cons_of_mem _ hq))
      (fun q hq e he => h q (List.mem_cons_of_mem _ hq) e he)
    unfold removeFileEntries
    unfold removeFileEntries at ihr
    simp only [List.filterMap_cons, hfilt, hpe, Bool.false_eq_true, if_false]
    rw [ihr]

/-- A bucket with no two entries colliding on `(file, range.start)`. -/
def UniqueBucket {α : Type} [IndexEntry α] (b : List α) : Prop :=
  b.Pairwise (fun e1 e2 => collides e1 e2 = false)

/-- Every bucket of the map is duplicate-free by `(file, range.start)`. -/
def UniqueMap {α : Type} [IndexEntry α] (m : SymbolMap α) : Prop :=
  ∀ p ∈ m, UniqueBucket p.2

theorem UniqueBucket_bucketInsert {α : Type} [IndexEntry α] {b : List α} {d : α}
    (h : UniqueBucket b) : UniqueBucket (bucketInsert b d) := by
  unfold bucketInsert
  by_cases hc : (b.any (fun e => collides e d)) = true
  · rw [if_pos hc]; exact h
  · rw [if_neg hc]
    unfold UniqueBucket
    rw [List.pairwise_append]
    refine ⟨h, by simp, ?_⟩
    intro a ha e he
    rw [List.mem_singleton.mp he]
    have := List.any_eq_false.mp (Bool.not_eq_true _ ▸ hc)
    simpa using this a ha

theorem UniqueBucket_filter {α : Type} [IndexEntry α] {b : List α}
    (p : α → Bool) (h : UniqueBucket b) : UniqueBucket (b.filter p) :=
  List.Pairwise.sublist (List.filter_sublist b) h

theorem UniqueBucket_mapGet {α : Type} [IndexEntry α] {m : SymbolMap α}
    (h : UniqueMap m) (k : String) : UniqueBucket (mapGet m k) := by
  rcases mapGet_cases m k with h1 | ⟨p, hp, _, hget⟩
  · rw [h1]; exact List.Pairwise.nil
  · rw [hget]; exact h p hp

theorem UniqueMap_mapInsert {α : Type} [IndexEntry α] {m : SymbolMap α} {d : α}
    (h : UniqueMap m) : UniqueMap (mapInsert m d) := by
  unfold mapInsert
  by_cases hc : ((mapGet m (IndexEntry.nameOf d)).any (fun e => collides e d)) = true
  · rw [if_pos hc]; exact h
  · rw [if_neg hc]
    intro p hp
    rcases mem_mapSet hp with h1 | h1
    · subst h1
      have : mapGet m (IndexEntry.nameOf d) ++ [d] =
          bucketInsert (mapGet m (IndexEntry.nameOf d)) d := by
        unfold bucketInsert; rw [if_neg hc]
      rw [this]
      exact UniqueBucket_bucketInsert (UniqueBucket_mapGet h _)
    · exact h p h1

theorem UniqueMap_foldl_mapInsert {α : Type} [IndexEntry α] {l : List α}
    {m : SymbolMap α} (h : UniqueMap m) : UniqueMap (l.foldl mapInsert m) := by
  induction l generalizing m with
  | nil => exact h
  | cons d rest ih => exact ih (UniqueMap_mapInsert h)

theorem UniqueMap_removeFileEntries {α : Type} [IndexEntry α] {m : SymbolMap α}
    {rel : String} (h : UniqueMap m) : UniqueMap (removeFileEntries m rel) := by
  intro p hp
  unfold removeFileEntries at hp
  obtain ⟨q, hq, hfq⟩ := List.mem_filterMap.mp hp
  by_cases hemp : (q.2.filter (fun x => IndexEntry.fileOf x != rel)).isEmpty = true
  · rw [if_pos hemp] at hfq; exact absurd hfq (by simp)
  · rw [if_neg hemp] at hfq
    obtain rfl : p = (q.1, q.2.filter (fun x => IndexEntry.fileOf x != rel)) :=
      (Option.some_inj.mp hfq).symm
    exact UniqueBucket_filter _ (h q hq)

/-- Both maps of the engine state are duplicate-free by
`(file, range.start)` within every name bucket. -/
def StateUnique (s : IndexerState) : Prop :=
  UniqueMap s.definitions ∧ UniqueMap s.references

theorem StateUnique_indexFile {env : Env} {s : IndexerState} {f : String}
    (h : StateUnique s) : StateUnique (indexFile env s f) := by
  unfold indexFile
  split
  · exact h
  · dsimp only
    split
    · exact ⟨UniqueMap_removeFileEntries h.1, UniqueMap_removeFileEntries h.2⟩
    · exact ⟨UniqueMap_foldl_mapInsert (UniqueMap_removeFileEntries h.1),
             UniqueMap_foldl_mapInsert (UniqueMap_removeFileEntries h.2)⟩

theorem StateUnique_foldl_indexFile {env : Env} {files : List String}
    {s : IndexerState} (h : StateUnique s) :
    StateUnique (files.foldl (indexFile env) s) := by
  induction files generalizing s with
  | nil => exact h
  | cons f rest ih => exact ih (StateUnique_indexFile h)

theorem StateUnique_runFullIndex {env : Env} {enumerate : Option (List String)}
    {s : IndexerState} (h : StateUnique s) :
    StateUnique (runFullIndex env enumerate s) := by
  have hcl : StateUnique
      { s with isIndexing := true, definitions := [], references := [],
               filesIndexed := [] } := by
    constructor <;> intro p hp <;> simp at hp
  unfold runFullIndex
  split
  · exact h
  · split
    · exact h
    · dsimp only
      split
      · exact ⟨hcl.1, hcl.2⟩
      · split
        · exact ⟨hcl.1, hcl.2⟩
        · exact StateUnique_foldl_indexFile hcl

theorem StateUnique_handleFileSave {env : Env} {s : IndexerState} {uri : String}
    (h : StateUnique s) : StateUnique (handleFileSave env s uri) := by
  unfold handleFileSave
  split
  · exact h
  · split
    · exact h
    · split
      · exact StateUnique_indexFile h
      · exact h

theorem indexFile_projectRoot (env : Env) (s : IndexerState) (f : String) :
    (indexFile env s f).projectRoot = s.projectRoot := by
  unfold indexFile
  split
  · rfl
  · dsimp only
    split
    · rfl
    · rfl

theorem foldl_indexFile_projectRoot (env : Env) (files : List String)
    (s : IndexerState) :
    (files.foldl (indexFile env) s).projectRoot = s.projectRoot := by
  induction files generalizing s with
  | nil => rfl
  | cons f rest ih => rw [List.foldl_cons, ih, indexFile_projectRoot]

theorem indexFile_filesIndexed_mem (env : Env) (t : IndexerState) (f root : String)
    (hroot : t.projectRoot = some root) (y : String) :
    y ∈ (indexFile env t f).filesIndexed ↔
      ((y ∈ t.filesIndexed ∧ y ≠ env.relOf root f) ∨
       (y = env.relOf root f ∧ (env.extract f root).isSome = true)) := by
  unfold indexFile
  rw [hroot]
  dsimp only
  cases hex : env.extract f root with
  | none =>
    dsimp only
    simp only [removeDataForFile, mem_setDelete, Option.isSome_none,
      Bool.false_eq_true, and_false, or_false]
  | some pr =>
    obtain ⟨newDefs, newRefs⟩ := pr
    dsimp only
    simp only [removeDataForFile, mem_setAdd, mem_setDelete, Option.isSome_some,
      and_true]

theorem foldl_indexFile_filesIndexed (env : Env) (files : List String)
    (t : IndexerState) (root : String) (hroot : t.projectRoot = some root)
    (hnd : (files.map (env.relOf root)).Nodup) (r : String) :
    r ∈ (files.foldl (indexFile env) t).filesIndexed ↔
      ((r ∈ t.filesIndexed ∧ ∀ f ∈ files, env.relOf root f ≠ r) ∨
       (∃ f ∈ files, env.relOf root f = r ∧ (env.extract f root).isSome = true)) := by
  induction files generalizing t with
  | nil => simp
  | cons f rest ih =>
    have hroot' : (indexFile env t f).projectRoot = some root := by
      rw [indexFile_projectRoot, hroot]
    have hcons : env.relOf root f ∉ rest.map (env.relOf root) ∧
        (rest.map (env.relOf root)).Nodup := by
      rw [List.map_cons, List.nodup_cons] at hnd
      exact hnd
    have hfnotin : env.relOf root f ∉ rest.map (env.relOf root) := hcons.1
    rw [List.foldl_cons, ih (indexFile env t f) hroot' hcons.2]
    simp only [indexFile_filesIndexed_mem env t f root hroot r, List.mem_cons,
      forall_eq_or_imp]
    constructor
    · rintro (⟨hy | hy, hall⟩ | ⟨f', hf', hrel, hsucc⟩)
      · exact Or.inl ⟨hy.1, Ne.symm hy.2, hall⟩
      · exact Or.inr ⟨f, Or.inl rfl, hy.1.symm, hy.2⟩
      · exact Or.inr ⟨f', Or.inr hf', hrel, hsucc⟩
    · rintro (⟨hy, hne, hall⟩ | ⟨f', hf' | hf', hrel, hsucc⟩)
      · exact Or.inl ⟨Or.inl ⟨hy, Ne.symm hne⟩, hall⟩
      · subst hf'
        refine Or.inl ⟨Or.inr ⟨hrel.symm, hsucc⟩, ?_⟩
        intro g hg hgr
        exact hfnotin (by rw [← hrel] at hgr; exact hgr ▸ List.mem_map_of_mem _ hg)
      · exact Or.inr ⟨f', hf', hrel, hsucc⟩

theorem indexFile_maps (env : Env) (t : IndexerState) (f root : String)
    (hroot : t.projectRoot = some root)
    (hremD : removeFileEntries t.definitions (env.relOf root f) = t.definitions)
    (hremR : removeFileEntries t.references (env.relOf root f) = t.references) :
    (indexFile env t f).definitions =
      (fileDefs env root f).foldl mapInsert t.definitions ∧
    (indexFile env t f).references =
      (fileRefs env root f).foldl mapInsert t.references := by
  unfold indexFile fileDefs fileRefs
  rw [hroot]
  dsimp only
  cases hex : env.extract f root with
  | none =>
    dsimp only
    exact ⟨by simp [removeDataForFile, hremD], by simp [removeDataForFile, hremR]⟩
  | some pr =>
    obtain ⟨ds, rs⟩ := pr
    dsimp only
    exact ⟨by simp [removeDataForFile, hremD], by simp [removeDataForFile, hremR]⟩

theorem foldl_indexFile_mapGet (env : Env) (files : List String)
    (t : IndexerState) (root : String) (hroot : t.projectRoot = some root)
    (hnd : (files.map (env.relOf root)).Nodup)
    (hD : ∀ f ∈ files,
      AllEntries (fun e => IndexEntry.fileOf e ≠ env.relOf root f) t.definitions)
    (hR : ∀ f ∈ files,
      AllEntries (fun e => IndexEntry.fileOf e ≠ env.relOf root f) t.references)
    (hneD : NonemptyBuckets t.definitions) (hneR : NonemptyBuckets t.references)
    (hext : ∀ f ∈ files, ∀ pr, env.extract f root = some pr →
      (∀ d ∈ pr.1, d.file = env.relOf root f) ∧
      (∀ r ∈ pr.2, r.file = env.relOf root f))
    (name : String) :
    mapGet (files.foldl (indexFile env) t).definitions name =
      ((extractedDefs env root files).filter
        (fun d => IndexEntry.nameOf d == name)).foldl bucketInsert
        (mapGet t.definitions name) ∧
    mapGet (files.foldl (indexFile env) t).references name =
      ((extractedRefs env root files).filter
        (fun r => IndexEntry.nameOf r == name)).foldl bucketInsert
        (mapGet t.references name) := by
  induction files generalizing t with
  | nil => simp [extractedDefs, extractedRefs]
  | cons f rest ih =>
    have hcons : env.relOf root f ∉ rest.map (env.relOf root) ∧
        (rest.map (env.relOf root)).Nodup := by
      rw [List.map_cons, List.nodup_cons] at hnd
      exact hnd
    have hremD : removeFileEntries t.definitions (env.relOf root f) = t.definitions :=
      removeFileEntries_eq_self hneD (hD f (by simp))
    have hremR : removeFileEntries t.references (env.relOf root f) = t.references :=
      removeFileEntries_eq_self hneR (hR f (by simp))
    have hmaps := indexFile_maps env t f root hroot hremD hremR
    have hfileD : ∀ d ∈ fileDefs env root f, d.file = env.relOf root f := by
      intro d hd
      unfold fileDefs at hd
      cases hex : env.extract f root with
      | none => rw [hex] at hd; simp at hd
      | some pr =>
        rw [hex] at hd
        exact (hext f (by simp) pr hex).1 d hd
    have hfileR : ∀ r ∈ fileRefs env root f, r.file = env.relOf root f := by
      intro r hr
      unfold fileRefs at hr
      cases hex : env.extract f root with
      | none => rw [hex] at hr; simp at hr
      | some pr =>
        rw [hex] at hr
        exact (hext f (by simp) pr hex).2 r hr
    have hrelne : ∀ f' ∈ rest, env.relOf root f ≠ env.relOf root f' := by
      intro f' hf' he
      exact hcons.1 (he ▸ List.mem_map_of_mem _ hf')
    have hroot' : (indexFile env t f).projectRoot = some root := by
      rw [indexFile_projectRoot, hroot]
    have hD' : ∀ f' ∈ rest, AllEntries
        (fun e => IndexEntry.fileOf e ≠ env.relOf root f')
        (indexFile env t f).definitions := by
      intro f' hf'
      rw [hmaps.1]
      refine AllEntries_foldl_mapInsert (hD f' (List.mem_cons_of_mem _ hf')) ?_
      intro d hd
      show d.file ≠ env.relOf root f'
      rw [hfileD d hd]
      exact hrelne f' hf'
    have hR' : ∀ f' ∈ rest, AllEntries
        (fun e => IndexEntry.fileOf e ≠ env.relOf root f')
        (indexFile env t f).references := by
      intro f' hf'
      rw [hmaps.2]
      refine AllEntries_foldl_mapInsert (hR f' (List.mem_cons_of_mem _ hf')) ?_
      intro r hr
      show r.file ≠ env.relOf root f'
      rw [hfileR r hr]
      exact hrelne f' hf'
    have hneD' : NonemptyBuckets (indexFile env t f).definitions := by
      rw [hmaps.1]; exact NonemptyBuckets_foldl_mapInsert hneD
    have hneR' : NonemptyBuckets (indexFile env t f).references := by
      rw [hmaps.2]; exact NonemptyBuckets_foldl_mapInsert hneR
    have hext' : ∀ f' ∈ rest, ∀ pr, env.extract f' root = some pr →
        (∀ d ∈ pr.1, d.file = env.relOf root f') ∧
        (∀ r ∈ pr.2, r.file = env.relOf root f') :=
      fun f' hf' => hext f' (List.mem_cons_of_mem _ hf')
    have ihr := ih (indexFile env t f) hroot' hcons.2 hD' hR' hneD' hneR' hext'
    rw [List.foldl_cons]
    constructor
    · rw [ihr.1, hmaps.1, mapGet_foldl_mapInsert]
      have hstream : extractedDefs env root (f :: rest) =
          fileDefs env root f ++ extractedDefs env root rest := by
        simp [extractedDefs, List.flatMap_cons]
      rw [hstream, List.filter_append, List.foldl_append]
    · rw [ihr.2, hmaps.2, mapGet_foldl_mapInsert]
      have hstream : extractedRefs env root (f :: rest) =
          fileRefs env root f ++ extractedRefs env root rest := by
        simp [extractedRefs, List.flatMap_cons]
      rw [hstream, List.filter_append, List.foldl_append]

theorem toLspLocation_some (env : Env) (s : IndexerState) (root file : String)
    (range : Range) (h : s.projectRoot = some root) :
    toLspLocation env s file range = some (lspLocationOf env root file range) := by
  unfold toLspLocation lspLocationOf
  rw [h]

theorem findDefinitions_eq_map (env : Env) (s : IndexerState) (root symbol : String)
    (h : s.projectRoot = some root) :
    findDefinitions env s symbol =
      (mapGet s.definitions symbol).map
        (fun d => lspLocationOf env root d.file d.range) := by
  unfold findDefinitions
  generalize mapGet s.definitions symbol = l
  induction l with
  | nil => rfl
  | cons d rest ih =>
    rw [List.filterMap_cons, toLspLocation_some env s root _ _ h]
    dsimp only
    rw [ih, List.map_cons]

theorem findReferences_eq_map (env : Env) (s : IndexerState) (root symbol : String)
    (h : s.projectRoot = some root) :
    findReferences env s symbol =
      (mapGet s.references symbol).map
        (fun r => lspLocationOf env root r.file r.range) := by
  unfold findReferences
  generalize mapGet s.references symbol = l
  induction l with
  | nil => rfl
  | cons r rest ih =>
    rw [List.filterMap_cons, toLspLocation_some env s root _ _ h]
    dsimp only
    rw [ih, List.map_cons]

theorem mapGet_eq_nil {α : Type} {m : SymbolMap α} {k : String}
    (h : ∀ p ∈ m, p.1 ≠ k) : mapGet m k = [] := by
  induction m with
  | nil => rfl
  | cons p rest ih =>
    have hp : p.1 ≠ k := h p (by simp)
    simp only [mapGet, hp, if_false]
    exact ih (fun q hq => h q (List.mem_cons_of_mem _ hq))

theorem runFullIndex_glob_failure (env : Env) (s : IndexerState) (root : String)
    (hroot : s.projectRoot = some root) (hidle : s.isIndexing = false) :
    runFullIndex env none s =
      { s with isIndexing := false, definitions := [], references := [],
               filesIndexed := [] } := by
  unfold runFullIndex
  rw [hroot]
  dsimp only
  rw [hidle]
  simp only [Bool.false_eq_true, if_false]

theorem runFullIndex_files (env : Env) (files : List String) (s : IndexerState)
    (root : String) (hroot : s.projectRoot = some root)
    (hidle : s.isIndexing = false) :
    runFullIndex env (some files) s =
      if files.isEmpty then
        { s with isIndexing := false, definitions := [], references := [],
                 filesIndexed := [] }
      else
        { files.foldl (indexFile env)
            { s with isIndexing := true, definitions := [], references := [],
                     filesIndexed := [] } with isIndexing := false } := by
  unfold runFullIndex
  rw [hroot]
  dsimp only
  rw [hidle]
  simp only [Bool.false_eq_true, if_false]

theorem nodup_map_inj {α β : Type} {l : List α} {g : α → β}
    (h : (l.map g).Nodup) :
    ∀ x ∈ l, ∀ y ∈ l, g x = g y → x = y := by
  induction l with
  | nil => simp
  | cons a t ih =>
    rw [List.map_cons, List.nodup_cons] at h
    intro x hx y hy hxy
    rcases List.mem_cons.mp hx with rfl | hx'
    · rcases List.mem_cons.mp hy with rfl | hy'
      · rfl
      · exact absurd (by rw [hxy]; exact List.mem_map_of_mem _ hy') h.1
    · rcases List.mem_cons.mp hy with rfl | hy'
      · exact absurd (by rw [← hxy]; exact List.mem_map_of_mem _ hx') h.1
      · exact ih h.2 x hx' y hy' hxy

/-! Claim theorems. -/

/-- C1 (counterexample): claim "if file enumeration fails during a full
rebuild, the previous index state is left untouched, because the clear
has not yet occurred at that point" is false: `runFullIndex` clears both
mappings and the indexed-file set before running the glob, so a rebuild
whose enumeration fails leaves the index empty, not in its previous
nonempty state. -/
theorem C1_clear_precedes_enumeration_counterexample :
    sPrior.definitions ≠ [] ∧ sPrior.filesIndexed ≠ [] ∧
    (runFullIndex envNoExtract none sPrior).definitions = [] ∧
    (runFullIndex envNoExtract none sPrior).filesIndexed = [] ∧
    runFullIndex envNoExtract none sPrior ≠ sPrior := by
  refine ⟨by decide, by decide, ?_, ?_, by decide⟩ <;> rfl

/-- C1 (amended): if file enumeration fails during a full rebuild, the
rebuild is aborted (no file is processed and the `isIndexing` flag is
reset), but the clear has already occurred: both mappings and the
indexed-file set are left empty rather than in their previous state. -/
theorem C1_enumeration_failure_leaves_cleared_index (env : Env)
    (s : IndexerState) (root : String)
    (hroot : s.projectRoot = some root) (hidle : s.isIndexing = false) :
    (runFullIndex env none s).definitions = [] ∧
    (runFullIndex env none s).references = [] ∧
    (runFullIndex env none s).filesIndexed = [] ∧
    (runFullIndex env none s).isIndexing = false ∧
    (runFullIndex env none s).projectRoot = s.projectRoot := by
  rw [runFullIndex_glob_failure env s root hroot hidle]
  exact ⟨rfl, rfl, rfl, rfl, rfl⟩

/-- Witness for the amended C1 at the concrete state `sPrior`. -/
theorem C1_enumeration_failure_witness :
    sPrior.projectRoot = some "/p" ∧ sPrior.isIndexing = false ∧
    (runFullIndex envNoExtract none sPrior).definitions = [] ∧
    (runFullIndex envNoExtract none sPrior).references = [] := by
  have h := C1_enumeration_failure_leaves_cleared_index envNoExtract sPrior "/p"
    rfl rfl
  exact ⟨rfl, rfl, h.1, h.2.1⟩

/-- C5: a rebuild requested while one is in progress (`isIndexing` true)
is rejected as a pure no-op: `runFullIndex` returns with the state
entirely unchanged, so the in-progress rebuild's result is unaffected. -/
theorem C5_reentrant_rebuild_rejected (env : Env)
    (enumerate : Option (List String)) (s : IndexerState)
    (h : s.isIndexing = true) : runFullIndex env enumerate s = s := by
  unfold runFullIndex
  split
  · rfl
  · rw [if_pos h]

/-- Witness for C5 at the concrete busy state `sBusy`. -/
theorem C5_reentrant_rebuild_witness :
    sBusy.isIndexing = true ∧
    runFullIndex envNoExtract (some ["/p/A.cls"]) sBusy = sBusy :=
  ⟨rfl, C5_reentrant_rebuild_rejected envNoExtract (some ["/p/A.cls"]) sBusy rfl⟩

/-- C6: lookups are total and never raise: with no resolved project root
both `findDefinitions` and `findReferences` return the empty list for
every name, and a name that has no bucket in the corresponding mapping
(never indexed) also yields the empty list. -/
theorem C6_lookup_never_fails (env : Env) (s : IndexerState) (symbol : String) :
    (s.projectRoot = none →
      findDefinitions env s symbol = [] ∧ findReferences env s symbol = []) ∧
    ((∀ p ∈ s.definitions, p.1 ≠ symbol) → findDefinitions env s symbol = []) ∧
    ((∀ p ∈ s.references, p.1 ≠ symbol) → findReferences env s symbol = []) := by
  refine ⟨fun hroot => ?_, fun h => ?_, fun h => ?_⟩
  · have hnone : ∀ (file : String) (range : Range),
        toLspLocation env s file range = none := by
      intro file range
      unfold toLspLocation
      rw [hroot]
    constructor
    · unfold findDefinitions
      simp [hnone]
    · unfold findReferences
      simp [hnone]
  · unfold findDefinitions
    rw [mapGet_eq_nil h]
    rfl
  · unfold findReferences
    rw [mapGet_eq_nil h]
    rfl

/-- Witness for C6: root-unresolved lookups on `sNone` and a lookup for
the never-indexed name `Bar` on `sPrior`. -/
theorem C6_lookup_never_fails_witness :
    sNone.projectRoot = none ∧
    findDefinitions envNoExtract sNone "Foo" = [] ∧
    findReferences envNoExtract sNone "Foo" = [] ∧
    findDefinitions envNoExtract sPrior "Bar" = [] := by
  have h1 := (C6_lookup_never_fails envNoExtract sNone "Foo").1 rfl
  have h2 := (C6_lookup_never_fails envNoExtract sPrior "Bar").2.1 (by decide)
  exact ⟨rfl, h1.1, h1.2, h2⟩

/-- C7: the 1-based to 0-based coordinate translation
(`indexRangeToLspRange`, subtracting 1) is exactly inverted by the
0-based to 1-based translation (`pointToPosition`, adding 1): any
internal position with line and column at least 1 round-trips
unchanged. -/
theorem C7_coordinate_roundtrip (L C : Int) (h1 : 1 ≤ L) (h2 : 1 ≤ C) :
    pointToPosition
        { row := (indexRangeToLspRange
            { start := { line := L, column := C },
              endPos := { line := L, column := C } }).start.line,
          column := (indexRangeToLspRange
            { start := { line := L, column := C },
              endPos := { line := L, column := C } }).start.character } =
      { line := L, column := C } := by
  simp only [pointToPosition, indexRangeToLspRange, Position.mk.injEq]
  constructor <;> omega

/-- Witness for C7 at line 3, column 5. -/
theorem C7_coordinate_roundtrip_witness :
    (1 : Int) ≤ 3 ∧ (1 : Int) ≤ 5 ∧
    pointToPosition
        { row := (indexRangeToLspRange
            { start := { line := 3, column := 5 },
              endPos := { line := 3, column := 5 } }).start.line,
          column := (indexRangeToLspRange
            { start := { line := 3, column := 5 },
              endPos := { line := 3, column := 5 } }).start.character } =
      { line := 3, column := 5 } :=
  ⟨by norm_num, by norm_num,
    C7_coordinate_roundtrip 3 5 (by norm_num) (by norm_num)⟩

/-- C3: `indexFile` removes every stored entry of the file's relative
path (with `removeDataForFile`, which never leaves an empty bucket)
strictly before inserting the newly extracted entries, so any surviving
entry of that path comes from the new extraction; in particular a
re-index that extracts nothing leaves no entry of that file in either
mapping. -/
theorem C3_removal_precedes_insertion (env : Env) (s : IndexerState)
    (f root : String) (ds : List Definition) (rs : List Reference)
    (hroot : s.projectRoot = some root)
    (hex : env.extract f root = some (ds, rs)) :
    (∀ name d, d ∈ mapGet (indexFile env s f).definitions name →
      d.file = env.relOf root f → d ∈ ds) ∧
    (∀ name r, r ∈ mapGet (indexFile env s f).references name →
      r.file = env.relOf root f → r ∈ rs) ∧
    (ds = [] → rs = [] → ∀ name,
      (∀ d ∈ mapGet (indexFile env s f).definitions name,
        d.file ≠ env.relOf root f) ∧
      (∀ r ∈ mapGet (indexFile env s f).references name,
        r.file ≠ env.relOf root f)) ∧
    NonemptyBuckets (removeDataForFile s (env.relOf root f)).definitions ∧
    NonemptyBuckets (removeDataForFile s (env.relOf root f)).references := by
  have hdefs : (indexFile env s f).definitions =
      ds.foldl mapInsert (removeFileEntries s.definitions (env.relOf root f)) := by
    unfold indexFile
    rw [hroot]
    dsimp only
    rw [hex]
    rfl
  have hrefs : (indexFile env s f).references =
      rs.foldl mapInsert (removeFileEntries s.references (env.relOf root f)) := by
    unfold indexFile
    rw [hroot]
    dsimp only
    rw [hex]
    rfl
  have hpartD : ∀ name d, d ∈ mapGet (indexFile env s f).definitions name →
      d.file = env.relOf root f → d ∈ ds := by
    intro name d hd hfile
    rw [hdefs, mapGet_foldl_mapInsert] at hd
    rcases mem_foldl_bucketInsert hd with h1 | h1
    · exact absurd hfile (mem_mapGet_removeFileEntries h1)
    · exact List.mem_of_mem_filter h1
  have hpartR : ∀ name r, r ∈ mapGet (indexFile env s f).references name →
      r.file = env.relOf root f → r ∈ rs := by
    intro name r hr hfile
    rw [hrefs, mapGet_foldl_mapInsert] at hr
    rcases mem_foldl_bucketInsert hr with h1 | h1
    · exact absurd hfile (mem_mapGet_removeFileEntries h1)
    · exact List.mem_of_mem_filter h1
  refine ⟨hpartD, hpartR, ?_, ?_, ?_⟩
  · intro hds hrs name
    constructor
    · intro d hd hfile
      have := hpartD name d hd hfile
      rw [hds] at this
      simp at this
    · intro r hr hfile
      have := hpartR name r hr hfile
      rw [hrs] at this
      simp at this
  · exact NonemptyBuckets_removeFileEntries _ _
  · exact NonemptyBuckets_removeFileEntries _ _

/-- Witness for C3 at the concrete session `envOk`, file `/p/A.cls`. -/
theorem C3_removal_precedes_insertion_witness :
    sPrior.projectRoot = some "/p" ∧
    envOk.extract "/p/A.cls" "/p" = some ([dFoo], [refBar]) ∧
    (∀ name d, d ∈ mapGet (indexFile envOk sPrior "/p/A.cls").definitions name →
      d.file = envOk.relOf "/p" "/p/A.cls" → d ∈ [dFoo]) := by
  have h := C3_removal_precedes_insertion envOk sPrior "/p/A.cls" "/p"
    [dFoo] [refBar] rfl (by decide)
  exact ⟨rfl, by decide, h.1⟩

/-- Every entry collides with itself on `(file, range.start)`. -/
theorem collides_self {α : Type} [IndexEntry α] (d : α) : collides d d = true := by
  simp [collides]

/-- C4: the engine's operations (`indexFile`, `runFullIndex`,
`handleFileSave`) preserve the invariant that every name bucket of both
mappings is duplicate-free by `(file, range.start)`, and the insertion
step deduplicates: inserting into a bucket that already holds exactly one
entry of the inserted key leaves exactly one entry of that key, and
inserting the same entry twice into a bucket free of that key also
leaves exactly one. -/
theorem C4_unique_by_key {α : Type} [IndexEntry α] (env : Env)
    (enumerate : Option (List String)) (s : IndexerState) (f uri : String)
    (m : SymbolMap α) (d : α) :
    (StateUnique s →
      StateUnique (indexFile env s f) ∧
      StateUnique (runFullIndex env enumerate s) ∧
      StateUnique (handleFileSave env s uri)) ∧
    ((mapGet m (IndexEntry.nameOf d)).countP (fun e => collides e d) = 1 →
      (mapGet (mapInsert m d) (IndexEntry.nameOf d)).countP
        (fun e => collides e d) = 1) ∧
    ((mapGet m (IndexEntry.nameOf d)).countP (fun e => collides e d) = 0 →
      (mapGet (mapInsert (mapInsert m d) d) (IndexEntry.nameOf d)).countP
        (fun e => collides e d) = 1) := by
  have hone : ∀ (mx : SymbolMap α),
      (mapGet mx (IndexEntry.nameOf d)).countP (fun e => collides e d) = 1 →
      mapInsert mx d = mx := by
    intro mx h
    have hpos : 0 < (mapGet mx (IndexEntry.nameOf d)).countP
        (fun e => collides e d) := by omega
    obtain ⟨e, he, hc⟩ := List.countP_pos_iff.mp hpos
    unfold mapInsert
    rw [if_pos (List.any_eq_true.mpr ⟨e, he, hc⟩)]
  refine ⟨fun h => ⟨StateUnique_indexFile h, StateUnique_runFullIndex h,
    StateUnique_handleFileSave h⟩, fun h => by rw [hone m h]; exact h, fun h => ?_⟩
  have hanyf : ((mapGet m (IndexEntry.nameOf d)).any (fun e => collides e d)) = false := by
    rw [List.any_eq_false]
    intro e he hc
    have : 0 < (mapGet m (IndexEntry.nameOf d)).countP (fun e => collides e d) :=
      List.countP_pos_iff.mpr ⟨e, he, hc⟩
    omega
  have hget : mapGet (mapInsert m d) (IndexEntry.nameOf d) =
      mapGet m (IndexEntry.nameOf d) ++ [d] := by
    unfold mapInsert
    rw [if_neg (by simp [hanyf]), mapGet_mapSet_self]
  have hcount1 : (mapGet (mapInsert m d) (IndexEntry.nameOf d)).countP
      (fun e => collides e d) = 1 := by
    rw [hget, List.countP_append, h]
    simp [List.countP_cons, collides_self]
  rw [hone _ hcount1]
  exact hcount1

/-- Witness for C4 on the singleton state `sPrior` and bucket map
holding `dFoo` once. -/
theorem C4_unique_by_key_witness :
    StateUnique sPrior ∧
    StateUnique (indexFile envOk sPrior "/p/A.cls") ∧
    (mapGet [("Foo", [dFoo])] (IndexEntry.nameOf dFoo)).countP
      (fun e => collides e dFoo) = 1 ∧
    (mapGet (mapInsert [("Foo", [dFoo])] dFoo) (IndexEntry.nameOf dFoo)).countP
      (fun e => collides e dFoo) = 1 := by
  have hsu : StateUnique sPrior := by
    constructor
    · intro p hp
      simp only [sPrior] at hp
      rcases List.mem_singleton.mp hp with rfl
      simp [UniqueBucket]
    · intro p hp
      simp [sPrior] at hp
  have hc1 : (mapGet [("Foo", [dFoo])] (IndexEntry.nameOf dFoo)).countP
      (fun e => collides e dFoo) = 1 := by decide
  exact ⟨hsu,
    ((C4_unique_by_key envOk (some []) sPrior "/p/A.cls" "u" [("Foo", [dFoo])]
      dFoo).1 hsu).1,
    hc1,
    (C4_unique_by_key envOk (some []) sPrior "/p/A.cls" "u" [("Foo", [dFoo])]
      dFoo).2.1 hc1⟩

/-- C9: `handleFileSave` tests containment under the project root with a
raw string prefix test, so the file `/work/proj2/A.cls` — which starts
with the root string `/work/proj` but does not lie under the root
directory (it does not start with `/work/proj/`) — is accepted and
indexed into the store. -/
theorem C9_prefix_test_accepts_sibling :
    strStartsWith "/work/proj2/A.cls" "/work/proj" = true ∧
    strStartsWith "/work/proj2/A.cls" ("/work/proj" ++ "/") = false ∧
    (handleFileSave env9 s9 "file:///work/proj2/A.cls").filesIndexed =
      ["../proj2/A.cls"] ∧
    mapGet (handleFileSave env9 s9 "file:///work/proj2/A.cls").definitions
      "Foo" = [dOutside] := by
  refine ⟨by decide, by decide, ?_, ?_⟩ <;> rfl

/-- C10: the `parseFile` extractor is total: modelled over an arbitrary
tree-sitter outcome (including a failed file read and throwing queries)
it always fulfills with a pair of lists, so `indexFile` driven by it
never takes its failure branch: the file is always added to the
indexed-file set. -/
theorem C10_parseFile_never_rejects (oracle : String → ParseOracle)
    (relOfFn resolveFn : String → String → String) (w32 : Bool)
    (s : IndexerState) (f root : String) (hroot : s.projectRoot = some root) :
    (∃ pr, parseFileExtract oracle relOfFn f root = some pr) ∧
    relOfFn root f ∈
      (indexFile { relOf := relOfFn, resolve := resolveFn, win32 := w32,
                   extract := parseFileExtract oracle relOfFn } s f).filesIndexed := by
  refine ⟨⟨parseFile oracle relOfFn f root, rfl⟩, ?_⟩
  unfold indexFile
  rw [hroot]
  dsimp only
  show relOfFn root f ∈
    setAdd (setDelete s.filesIndexed (relOfFn root f)) (relOfFn root f)
  exact mem_setAdd.mpr (Or.inr rfl)

/-- Witness for C10 with the trivial oracle on the fresh state. -/
theorem C10_parseFile_never_rejects_witness :
    sInit.projectRoot = some "/p" ∧
    (fun (_ : String) p => strDrop p 3) "/p" "/p/A.cls" ∈
      (indexFile { relOf := fun _ p => strDrop p 3,
                   resolve := fun r f => r ++ "/" ++ f, win32 := false,
                   extract := parseFileExtract oracle0 (fun _ p => strDrop p 3) }
        sInit "/p/A.cls").filesIndexed := by
  have h := C10_parseFile_never_rejects oracle0 (fun _ p => strDrop p 3)
    (fun r f => r ++ "/" ++ f) false sInit "/p/A.cls" "/p" rfl
  exact ⟨rfl, h.2⟩


/-- C2: after a full rebuild over `files` (supplied with distinct
relative paths, as the glob guarantees), the indexed-file set holds
exactly the relative paths of the supplied files minus the relative path
of every file whose extraction failed. -/
theorem C2_indexedFiles_after_rebuild (env : Env) (s : IndexerState)
    (root : String) (files : List String) (r : String)
    (hroot : s.projectRoot = some root) (hidle : s.isIndexing = false)
    (hnd : (files.map (env.relOf root)).Nodup) :
    r ∈ (runFullIndex env (some files) s).filesIndexed ↔
      (r ∈ files.map (env.relOf root) ∧
       r ∉ (files.filter (fun f => (env.extract f root).isNone)).map
           (env.relOf root)) := by
  by_cases hemp : files.isEmpty = true
  · obtain rfl : files = [] := List.isEmpty_iff.mp hemp
    have hrfi : runFullIndex env (some []) s =
        { s with isIndexing := false, definitions := [], references := [],
                 filesIndexed := [] } := by
      rw [runFullIndex_files env [] s root hroot hidle]
      rfl
    rw [hrfi]
    simp
  · have hrfi : runFullIndex env (some files) s =
        { files.foldl (indexFile env)
            (IndexerState.mk [] [] [] s.projectRoot true) with
          isIndexing := false } := by
      rw [runFullIndex_files env files s root hroot hidle, if_neg hemp]
    rw [hrfi]
    have hroot1 : (IndexerState.mk [] [] [] s.projectRoot true).projectRoot =
        some root := hroot
    have hmem := foldl_indexFile_filesIndexed env files
      (IndexerState.mk [] [] [] s.projectRoot true) root hroot1 hnd r
    simp only [List.not_mem_nil, false_and, false_or] at hmem
    refine hmem.trans ?_
    constructor
    · rintro ⟨f, hf, hrel, hsucc⟩
      refine ⟨hrel ▸ List.mem_map_of_mem _ hf, ?_⟩
      intro hrfail
      obtain ⟨f', hf', hrel'⟩ := List.mem_map.mp hrfail
      have hf'files : f' ∈ files := List.mem_of_mem_filter hf'
      have heq : f' = f := nodup_map_inj hnd f' hf'files f hf (by rw [hrel', hrel])
      subst heq
      have hnone := List.of_mem_filter hf'
      rw [Option.isNone_iff_eq_none] at hnone
      rw [hnone] at hsucc
      simp at hsucc
    · rintro ⟨hmem2, hnotfail⟩
      obtain ⟨f, hf, hrel⟩ := List.mem_map.mp hmem2
      refine ⟨f, hf, hrel, ?_⟩
      cases hex : env.extract f root with
      | none =>
        exfalso
        apply hnotfail
        refine List.mem_map.mpr ⟨f, List.mem_filter.mpr ⟨hf, ?_⟩, hrel⟩
        simp [hex]
      | some pr => simp

/-- Witness for C2: rebuild over `/p/A.cls` (extracts) and `/p/B.cls`
(extraction fails) under `envOk`; the iff is reported for the successful
file's relative path. -/
theorem C2_indexedFiles_after_rebuild_witness :
    sInit.projectRoot = some "/p" ∧ sInit.isIndexing = false ∧
    ((["/p/A.cls", "/p/B.cls"].map (envOk.relOf "/p")).Nodup) ∧
    ("A.cls" ∈ (runFullIndex envOk (some ["/p/A.cls", "/p/B.cls"])
        sInit).filesIndexed ↔
      ("A.cls" ∈ ["/p/A.cls", "/p/B.cls"].map (envOk.relOf "/p") ∧
       "A.cls" ∉ (["/p/A.cls", "/p/B.cls"].filter
           (fun f => (envOk.extract f "/p").isNone)).map (envOk.relOf "/p"))) := by
  have hnd : ((["/p/A.cls", "/p/B.cls"].map (envOk.relOf "/p")).Nodup) := by
    decide
  exact ⟨rfl, rfl, hnd,
    C2_indexedFiles_after_rebuild envOk sInit "/p" ["/p/A.cls", "/p/B.cls"]
      "A.cls" rfl rfl hnd⟩

/-- C8: after a full rebuild over `files` (distinct relative paths, each
extracted record carrying its own file's relative path, as `parseFile`
guarantees), the list `findDefinitions` or `findReferences` returns for
a name is that name's slice of the extraction stream in insertion
order — files in exactly the supplied order, within one file the
extractor's output order — folded through the deduplicating insert and
translated to protocol locations. -/
theorem C8_lookup_order_is_insertion_order (env : Env) (s : IndexerState)
    (root name : String) (files : List String)
    (hroot : s.projectRoot = some root) (hidle : s.isIndexing = false)
    (hnd : (files.map (env.relOf root)).Nodup)
    (hext : ∀ f ∈ files, ∀ pr, env.extract f root = some pr →
      (∀ d ∈ pr.1, d.file = env.relOf root f) ∧
      (∀ r ∈ pr.2, r.file = env.relOf root f)) :
    findDefinitions env (runFullIndex env (some files) s) name =
      (((extractedDefs env root files).filter
        (fun d => IndexEntry.nameOf d == name)).foldl bucketInsert []).map
        (fun d => lspLocationOf env root d.file d.range) ∧
    findReferences env (runFullIndex env (some files) s) name =
      (((extractedRefs env root files).filter
        (fun r => IndexEntry.nameOf r == name)).foldl bucketInsert []).map
        (fun r => lspLocationOf env root r.file r.range) := by
  by_cases hemp : files.isEmpty = true
  · obtain rfl : files = [] := List.isEmpty_iff.mp hemp
    have hrfi : runFullIndex env (some []) s =
        { s with isIndexing := false, definitions := [], references := [],
                 filesIndexed := [] } := by
      rw [runFullIndex_files env [] s root hroot hidle]
      rfl
    have hroots : (runFullIndex env (some []) s).projectRoot = some root := by
      rw [hrfi]
      exact hroot
    constructor
    · rw [findDefinitions_eq_map env _ root name hroots, hrfi]
      rfl
    · rw [findReferences_eq_map env _ root name hroots, hrfi]
      rfl
  · have hrfi : runFullIndex env (some files) s =
        { files.foldl (indexFile env)
            (IndexerState.mk [] [] [] s.projectRoot true) with
          isIndexing := false } := by
      rw [runFullIndex_files env files s root hroot hidle, if_neg hemp]
    have hroot1 : (IndexerState.mk [] [] [] s.projectRoot true).projectRoot =
        some root := hroot
    have hroots : (runFullIndex env (some files) s).projectRoot = some root := by
      rw [hrfi]
      exact Eq.trans
        (foldl_indexFile_projectRoot env files
          (IndexerState.mk [] [] [] s.projectRoot true)) hroot
    have hfold := foldl_indexFile_mapGet env files
      (IndexerState.mk [] [] [] s.projectRoot true) root hroot1 hnd
      (fun f hf p hp => absurd hp (List.not_mem_nil p))
      (fun f hf p hp => absurd hp (List.not_mem_nil p))
      (fun p hp => absurd hp (List.not_mem_nil p))
      (fun p hp => absurd hp (List.not_mem_nil p))
      hext name
    constructor
    · rw [findDefinitions_eq_map env _ root name hroots, hrfi]
      show (mapGet (files.foldl (indexFile env)
        (IndexerState.mk [] [] [] s.projectRoot true)).definitions name).map
        (fun d => lspLocationOf env root d.file d.range) = _
      rw [hfold.1]
      rfl
    · rw [findReferences_eq_map env _ root name hroots, hrfi]
      show (mapGet (files.foldl (indexFile env)
        (IndexerState.mk [] [] [] s.projectRoot true)).references name).map
        (fun r => lspLocationOf env root r.file r.range) = _
      rw [hfold.2]
      rfl

/-- Witness for C8: rebuild over the single file `/p/A.cls` under
`envOk` and look `Foo` up. -/
theorem C8_lookup_order_witness :
    sInit.projectRoot = some "/p" ∧ sInit.isIndexing = false ∧
    ((["/p/A.cls"].map (envOk.relOf "/p")).Nodup) ∧
    findDefinitions envOk (runFullIndex envOk (some ["/p/A.cls"]) sInit) "Foo" =
      (((extractedDefs envOk "/p" ["/p/A.cls"]).filter
        (fun d => IndexEntry.nameOf d == "Foo")).foldl bucketInsert []).map
        (fun d => lspLocationOf envOk "/p" d.file d.range) := by
  have hext : ∀ f ∈ ["/p/A.cls"], ∀ pr, envOk.extract f "/p" = some pr →
      (∀ d ∈ pr.1, d.file = envOk.relOf "/p" f) ∧
      (∀ r ∈ pr.2, r.file = envOk.relOf "/p" f) := by
    intro f hf pr hpr
    obtain rfl : f = "/p/A.cls" := by simpa using hf
    have hval : envOk.extract "/p/A.cls" "/p" = some ([dFoo], [refBar]) := by
      decide
    rw [hval] at hpr
    obtain rfl : ([dFoo], [refBar]) = pr := Option.some_inj.mp hpr
    constructor
    · intro d hd
      obtain rfl : d = dFoo := by simpa using hd
      decide
    · intro r hr
      obtain rfl : r = refBar := by simpa using hr
      decide
  exact ⟨rfl, rfl, by decide,
    (C8_lookup_order_is_insertion_order envOk sInit "/p" "Foo" ["/p/A.cls"]
      rfl rfl (by decide) hext).1⟩
